import Mathlib

/-! Verification of the chunked-summarizer core and UI statistics of the
ai_summarizer_app repository.

Python strings are modelled as lists of characters.  The summarization
pipeline object (`transformers.pipeline("summarization", ...)`) and the HTTP
transport (`requests.post`) are injected as function parameters; failure of a
call (a raised exception) is modelled with `Except`, the error value being the
text of the exception. -/

/-- Python `str.split()` with no separator argument splits on maximal runs of
whitespace and drops empty pieces.  `acc` is the in-progress word, reversed. -/
def splitWsGo : List Char → List Char → List (List Char)
  | [], acc => if acc = [] then [] else [acc.reverse]
  | c :: cs, acc =>
    if c.isWhitespace then
      if acc = [] then splitWsGo cs [] else acc.reverse :: splitWsGo cs []
    else
      splitWsGo cs (c :: acc)

/-- Python `text.split()` (no separator argument). -/
def pySplit (s : List Char) : List (List Char) := splitWsGo s []

/-- Python `' '.join(pieces)`. -/
def joinSp : List (List Char) → List Char
  | [] => []
  | [w] => w
  | w :: v :: ws => w ++ ' ' :: joinSp (v :: ws)

/-- Python `str.strip()`: remove leading and trailing whitespace. -/
def pyStrip (s : List Char) : List Char :=
  ((s.dropWhile Char.isWhitespace).reverse.dropWhile Char.isWhitespace).reverse

/-- A word as produced by `str.split()`: non-empty and free of whitespace. -/
def IsWord (w : List Char) : Prop := w ≠ [] ∧ ∀ c ∈ w, c.isWhitespace = false

theorem splitWsGo_words : ∀ (cs acc : List Char),
    (∀ c ∈ acc, c.isWhitespace = false) → ∀ w ∈ splitWsGo cs acc, IsWord w := by
  intro cs
  induction cs with
  | nil =>
    intro acc hacc w hw
    by_cases h : acc = [] <;> simp [splitWsGo, h] at hw
    subst hw
    exact ⟨by simpa using h, fun c hc => hacc c (List.mem_reverse.mp hc)⟩
  | cons c cs ih =>
    intro acc hacc w hw
    by_cases hws : c.isWhitespace
    · by_cases h : acc = []
      · rw [splitWsGo] at hw
        simp only [hws, if_true, h, if_pos rfl] at hw
        exact ih [] (by simp) w hw
      · rw [splitWsGo] at hw
        simp only [hws, if_true, if_neg h, List.mem_cons] at hw
        rcases hw with hw | hw
        · subst hw
          exact ⟨by simpa using h, fun a ha => hacc a (List.mem_reverse.mp ha)⟩
        · exact ih [] (by simp) w hw
    · rw [splitWsGo] at hw
      simp only [hws, if_false] at hw
      refine ih (c :: acc) ?_ w hw
      intro a ha
      rcases List.mem_cons.mp ha with rfl | ha
      · exact Bool.eq_false_iff.mpr hws
      · exact hacc a ha

theorem pySplit_words (s : List Char) : ∀ w ∈ pySplit s, IsWord w :=
  splitWsGo_words s [] (by simp)

/-- Feeding a whitespace-free block of characters into the splitter just
accumulates it onto the current word. -/
theorem splitWsGo_word_append : ∀ (w rest acc : List Char),
    (∀ c ∈ w, c.isWhitespace = false) →
    splitWsGo (w ++ rest) acc = splitWsGo rest (w.reverse ++ acc) := by
  intro w
  induction w with
  | nil => intro rest acc _; simp
  | cons c w ih =>
    intro rest acc hw
    have hc : c.isWhitespace = false := hw c (List.mem_cons_self c w)
    rw [List.cons_append, splitWsGo, hc]
    simp only [Bool.false_eq_true, if_false]
    rw [ih rest (c :: acc) (fun a ha => hw a (List.mem_cons_of_mem c ha))]
    simp [List.append_assoc]

/-- Splitting the space-join of a list of words recovers exactly the words. -/
theorem split_join : ∀ ws : List (List Char),
    (∀ w ∈ ws, IsWord w) → pySplit (joinSp ws) = ws := by
  intro ws
  induction ws with
  | nil => intro _; rfl
  | cons w tail ih =>
    intro h
    have hw : IsWord w := h w (List.mem_cons_self w tail)
    cases tail with
    | nil =>
      show splitWsGo (joinSp [w]) [] = [w]
      rw [joinSp, ← List.append_nil w, splitWsGo_word_append w [] [] hw.2]
      rw [splitWsGo]
      simp [hw.1]
    | cons v ws' =>
      show splitWsGo (joinSp (w :: v :: ws')) [] = w :: v :: ws'
      rw [joinSp, splitWsGo_word_append w (' ' :: joinSp (v :: ws')) [] hw.2]
      rw [splitWsGo]
      have : (' ' : Char).isWhitespace = true := by decide
      rw [this]
      simp only [if_true, List.append_nil, List.reverse_eq_nil_iff]
      rw [if_neg hw.1]
      rw [List.reverse_reverse]
      exact congrArg (w :: ·) (ih (fun u hu => h u (List.mem_cons_of_mem w hu)))

/-- Ceiling division on naturals: `ceilDiv n k = ⌈n / k⌉` for `k > 0`. -/
def ceilDiv (n k : Nat) : Nat := (n + k - 1) / k

/-- The chunk comprehension of the source,
`[words[i:i+k] for i in range(0, len(words), k)]`, written with an explicit
fuel argument (the fuel is instantiated with the list length). -/
def chunkListAux : Nat → Nat → List (List Char) → List (List (List Char))
  | 0, _, _ => []
  | _ + 1, _, [] => []
  | fuel + 1, k, a :: as => ((a :: as).take k) :: chunkListAux fuel k ((a :: as).drop k)

def chunkList (k : Nat) (l : List (List Char)) : List (List (List Char)) :=
  chunkListAux l.length k l

/-- The lengths of the chunks of a list depend only on the list's length;
this function computes them. -/
def chunkLens : Nat → Nat → Nat → List Nat
  | 0, _, _ => []
  | _ + 1, _, 0 => []
  | fuel + 1, k, n + 1 => min k (n + 1) :: chunkLens fuel k (n + 1 - k)

theorem chunkListAux_join : ∀ (fuel k : Nat) (l : List (List Char)),
    l.length ≤ fuel → 0 < k → (chunkListAux fuel k l).flatten = l := by
  intro fuel
  induction fuel with
  | zero =>
    intro k l hl _
    have : l = [] := List.length_eq_zero.mp (Nat.le_zero.mp hl)
    subst this; rfl
  | succ fuel ih =>
    intro k l hl hk
    cases l with
    | nil => rfl
    | cons a as =>
      rw [chunkListAux, List.flatten_cons]
      rw [ih k ((a :: as).drop k)
        (by simp only [List.length_drop, List.length_cons] at hl ⊢; omega) hk]
      exact List.take_append_drop k (a :: as)

theorem chunkList_join (k : Nat) (l : List (List Char)) (hk : 0 < k) :
    (chunkList k l).flatten = l :=
  chunkListAux_join l.length k l (Nat.le_refl _) hk

theorem chunkListAux_map_length : ∀ (fuel k : Nat) (l : List (List Char)),
    (chunkListAux fuel k l).map List.length = chunkLens fuel k l.length := by
  intro fuel
  induction fuel with
  | zero => intro k l; rfl
  | succ fuel ih =>
    intro k l
    cases l with
    | nil => rfl
    | cons a as =>
      rw [chunkListAux, List.map_cons, ih k ((a :: as).drop k)]
      simp [chunkLens, List.length_take, List.length_drop]

theorem chunkLens_zero (fuel k : Nat) : chunkLens fuel k 0 = [] := by
  cases fuel <;> rfl

theorem ceilDiv_step (k n : Nat) (hk : 0 < k) (hn : 0 < n) :
    ceilDiv n k = (n - 1) / k + 1 := by
  unfold ceilDiv
  have h : n + k - 1 = (n - 1) + k := by omega
  rw [h, Nat.add_div_right _ hk]

theorem chunkLens_length : ∀ (fuel k n : Nat), 0 < k → n ≤ fuel →
    (chunkLens fuel k n).length = ceilDiv n k := by
  intro fuel
  induction fuel with
  | zero =>
    intro k n hk hn
    have : n = 0 := Nat.le_zero.mp hn
    subst this
    simp [chunkLens, ceilDiv, Nat.div_eq_of_lt (by omega : k - 1 < k)]
  | succ fuel ih =>
    intro k n hk hn
    cases n with
    | zero => simp [chunkLens, ceilDiv, Nat.div_eq_of_lt (by omega : k - 1 < k)]
    | succ m =>
      rw [chunkLens, List.length_cons, ih k (m + 1 - k) hk (by omega)]
      rw [ceilDiv_step k (m + 1) hk (Nat.succ_pos m)]
      by_cases hle : m + 1 ≤ k
      · have h0 : m + 1 - k = 0 := by omega
        rw [h0]
        simp [ceilDiv, Nat.div_eq_of_lt (by omega : k - 1 < k),
          Nat.div_eq_of_lt (by omega : m < k)]
      · have hpos : 0 < m + 1 - k := by omega
        rw [ceilDiv_step k (m + 1 - k) hk hpos]
        have h1 : m + 1 - k - 1 = (m + 1 - 1) - k := by omega
        rw [h1]
        have h2 : (m + 1 - 1) / k = ((m + 1 - 1) - k) / k + 1 :=
          Nat.div_eq_sub_div hk (by omega)
        omega

theorem chunkLens_getD : ∀ (fuel k n : Nat), 0 < k →
    ∀ i : Nat, i + 1 < (chunkLens fuel k n).length →
      (chunkLens fuel k n).getD i 0 = k := by
  intro fuel
  induction fuel with
  | zero => intro k n _ i h; simp [chunkLens] at h
  | succ fuel ih =>
    intro k n hk i h
    cases n with
    | zero => simp [chunkLens] at h
    | succ m =>
      rw [chunkLens] at h ⊢
      cases i with
      | zero =>
        have htail : chunkLens fuel k (m + 1 - k) ≠ [] := by
          intro he
          rw [List.length_cons, he] at h
          simp at h
        have hlt : k < m + 1 := by
          by_contra hc
          have h0 : m + 1 - k = 0 := by omega
          rw [h0, chunkLens_zero] at htail
          exact htail rfl
        simp [Nat.min_eq_left (Nat.le_of_lt hlt)]
      | succ j =>
        rw [List.length_cons, Nat.succ_lt_succ_iff] at h
        rw [List.getD_cons_succ]
        exact ih k (m + 1 - k) hk j h

/-- Output of one call to the Hugging Face summarization pipeline: a list of
records, each a dictionary from keys to strings (the source reads
`result[0]["summary_text"]`).  Dictionaries are association lists. -/
abbrev PipeOutput := List (List ((List Char) × (List Char)))

/-- The injected summarization pipeline, `summarizer(chunk, max_length=a,
min_length=b)`.  An `error` value models the call raising an exception. -/
abbrev Pipe := List Char → Nat → Nat → Except (List Char) PipeOutput

/-- The subscript chain `result[0]["summary_text"]` of the source.  An empty
result list raises `IndexError` and a missing key raises `KeyError`; both are
modelled as `error` values carrying the exception text. -/
def extract_summary_text (result : PipeOutput) : Except (List Char) (List Char) :=
  match result with
  | [] => Except.error "list index out of range".data
  | d :: _ =>
    match d.find? (fun p => p.1 = "summary_text".data) with
    | some p => Except.ok p.2
    | none => Except.error "KeyError: summary_text".data

/-- One backend call as performed by the source:
`result = summarizer(chunk, max_length=a, min_length=b)` followed by
`result[0]["summary_text"]`. -/
def summarizeChunk (summarizer : Pipe) (chunk : List Char) (bmax bmin : Nat) :
    Except (List Char) (List Char) :=
  (summarizer chunk bmax bmin).bind extract_summary_text

/-- The per-chunk loop of the source (`for chunk in chunks: ...
summaries.append(result[0]["summary_text"])`).  Returns the trace of calls
made to the pipeline, as `(chunk, max_length, min_length)` triples, together
with either the collected summaries or the first exception; an exception
aborts the loop, so later chunks are not called. -/
def runChunks (summarizer : Pipe) (bmax bmin : Nat) :
    List (List Char) → List ((List Char) × Nat × Nat) × Except (List Char) (List (List Char))
  | [] => ([], Except.ok [])
  | c :: cs =>
    match summarizeChunk summarizer c bmax bmin with
    | Except.error e => ([(c, bmax, bmin)], Except.error e)
    | Except.ok s =>
      let r := runChunks summarizer bmax bmin cs
      ((c, bmax, bmin) :: r.1, r.2.map (fun ss => s :: ss))

/-- The backend's maximum input word count (`max_input_length = 1024`). -/
def max_input_length : Nat := 1024

/-- The chunk list built by the source for a long text:
`[' '.join(words[i:i+max_input_length]) for i in range(0, len(words),
max_input_length)]` where `words = text.split()`. -/
def chunksOf (text : List Char) : List (List Char) :=
  (chunkList max_input_length (pySplit text)).map joinSp

/-- `create_summary` of `app_cloud.py` (identical to the `try` body of
`summarize_text` in `gradio_version.py`): split the text into word windows of
at most `max_input_length` words; if more than one window is needed, call the
pipeline once per chunk with budget `(max_length // len(chunks),
min_length // len(chunks))` and join the outputs with spaces, otherwise call
it once on the whole text with the original budget.  The returned pair is the
trace of pipeline calls and the result (an uncaught exception is an `error`
value, as in `app_cloud.py`, where the caller catches it). -/
def create_summary (summarizer : Pipe) (text : List Char)
    (max_length min_length : Nat) :
    List ((List Char) × Nat × Nat) × Except (List Char) (List Char) :=
  let words := pySplit text
  if words.length > max_input_length then
    let chunks := chunksOf text
    let n := chunks.length
    let r := runChunks summarizer (max_length / n) (min_length / n) chunks
    (r.1, r.2.map joinSp)
  else
    ([(text, max_length, min_length)],
      summarizeChunk summarizer text max_length min_length)

/-- `summarize_text` of `gradio_version.py`: input validation, then the
chunked summarization, with any exception caught and rendered as
`f"Error generating summary: {str(e)}"`. -/
def summarize_text (summarizer : Pipe) (text : List Char)
    (max_length min_length : Nat) : List Char :=
  if pyStrip text = [] then "Please enter some text to summarize.".data
  else if (pyStrip text).length < 100 then
    "Please enter at least 100 characters for meaningful summarization.".data
  else
    match (create_summary summarizer text max_length min_length).2 with
    | Except.ok s => s
    | Except.error e => "Error generating summary: ".data ++ e

/-- Outcome of `json.loads(line)` plus the `"response" in json_response` test
for one streamed line, abstracting the JSON parser: the line is not valid
JSON (`JSONDecodeError`), is valid JSON without a `response` field, or is
valid JSON with a `response` fragment. -/
inductive StreamLine where
  | invalid : StreamLine
  | noResponseField : StreamLine
  | responseFragment : List Char → StreamLine

/-- `OllamaClient._handle_stream` of `ai_summarizer_app.py` (and, dropping the
UI placeholder updates, `_handle_stream_ui` of `streamlit_enhanced.py`):
iterate over the lines, skip empty lines (`if line:`), skip lines that fail to
parse (`except json.JSONDecodeError: continue`), and accumulate the `response`
fragments in receipt order. -/
def handle_stream (classify : List Char → StreamLine) :
    List (List Char) → List Char
  | [] => []
  | l :: ls =>
    if l = [] then handle_stream classify ls
    else
      match classify l with
      | StreamLine.responseFragment frag => frag ++ handle_stream classify ls
      | _ => handle_stream classify ls

/-- The `response` fragment a line contributes, if any. -/
def fragOf (classify : List Char → StreamLine) (l : List Char) :
    Option (List Char) :=
  match classify l with
  | StreamLine.responseFragment frag => some frag
  | _ => none

/-- The observable part of a `requests` response object used by
`OllamaClient.generate`: `response.json()` (a dictionary from keys to string
values) and `response.iter_lines()`. -/
structure OllamaResponse where
  body : List ((List Char) × (List Char))
  lines : List (List Char)

/-- Python `dict.get(key, default)` on an association list. -/
def dict_get (d : List ((List Char) × (List Char))) (key dflt : List Char) :
    List Char :=
  match d.find? (fun p => p.1 = key) with
  | some p => p.2
  | none => dflt

/-- `OllamaClient.generate` of `ai_summarizer_app.py` / `streamlit_enhanced.py`.
The transport argument models `requests.post` followed by
`raise_for_status()`: an `error` value is a raised
`requests.exceptions.RequestException`, which the method catches, reporting
`None`.  On success, the streaming branch folds the line iterator and the
non-streaming branch reads `result.get("response", "")`. -/
def generate (classify : List Char → StreamLine) (stream : Bool)
    (transport : Except (List Char) OllamaResponse) : Option (List Char) :=
  match transport with
  | Except.ok response =>
    if stream then some (handle_stream classify response.lines)
    else some (dict_get response.body "response".data "".data)
  | Except.error _ => none

/-- The statistic of `ai_summarizer_app.py` line 169 (and
`streamlit_enhanced.py` line 368):
`len(summary) / len(text_to_summarize) * 100`, character counts. -/
def compressionPct (text summary : List Char) : ℚ :=
  (summary.length : ℚ) / (text.length : ℚ) * 100

/-- The statistic of `app_cloud.py` lines 129-131 (and `get_statistics` of
`gradio_version.py`): `(summary_words / original_words) * 100` where the
counts are `len(x.split())`, word counts. -/
def compressionPctCloud (text summary : List Char) : ℚ :=
  ((pySplit summary).length : ℚ) / ((pySplit text).length : ℚ) * 100

/-- `save_summary_session` of `streamlit_enhanced.py`: prepend the new entry
(`insert(0, session_data)`) and keep only the first 10 entries (`[:10]`).
The entry's record type is abstract; the eviction logic does not read it. -/
def save_summary_session {α : Type} (entry : α) (history : List α) : List α :=
  (entry :: history).take 10

/-- Whether an `Except` value is an exception. -/
def isErr {ε α : Type} : Except ε α → Bool
  | Except.error _ => true
  | Except.ok _ => false

theorem isErr_map {ε α β : Type} (f : α → β) (x : Except ε α) :
    isErr (x.map f) = isErr x := by
  cases x <;> rfl

theorem runChunks_budgets (summarizer : Pipe) (bmax bmin : Nat) :
    ∀ cs : List (List Char), ∀ p ∈ (runChunks summarizer bmax bmin cs).1,
      p.2 = (bmax, bmin) := by
  intro cs
  induction cs with
  | nil => intro p hp; simp [runChunks] at hp
  | cons c cs ih =>
    intro p hp
    rw [runChunks] at hp
    cases hc : summarizeChunk summarizer c bmax bmin with
    | error e =>
      rw [hc] at hp
      simp only [List.mem_singleton] at hp
      subst hp; rfl
    | ok s =>
      rw [hc] at hp
      simp only [List.mem_cons] at hp
      rcases hp with rfl | hp
      · rfl
      · exact ih p hp

theorem runChunks_ok_trace (summarizer : Pipe) (bmax bmin : Nat) :
    ∀ cs : List (List Char),
      (∀ c ∈ cs, isErr (summarizeChunk summarizer c bmax bmin) = false) →
      (runChunks summarizer bmax bmin cs).1.map Prod.fst = cs := by
  intro cs
  induction cs with
  | nil => intro _; rfl
  | cons c cs ih =>
    intro h
    rw [runChunks]
    cases hc : summarizeChunk summarizer c bmax bmin with
    | error e =>
      have := h c (List.mem_cons_self c cs)
      rw [hc] at this
      simp [isErr] at this
    | ok s =>
      simp only [List.map_cons]
      rw [ih (fun a ha => h a (List.mem_cons_of_mem c ha))]

theorem runChunks_error (summarizer : Pipe) (bmax bmin : Nat) :
    ∀ cs : List (List Char),
      (∃ c ∈ cs, isErr (summarizeChunk summarizer c bmax bmin) = true) →
      isErr (runChunks summarizer bmax bmin cs).2 = true := by
  intro cs
  induction cs with
  | nil => rintro ⟨c, hc, _⟩; simp at hc
  | cons c cs ih =>
    rintro ⟨a, ha, hfail⟩
    rw [runChunks]
    cases hc : summarizeChunk summarizer c bmax bmin with
    | error e => rfl
    | ok s =>
      simp only
      rw [isErr_map]
      rcases List.mem_cons.mp ha with rfl | ha
      · rw [hc] at hfail; simp [isErr] at hfail
      · exact ih ⟨a, ha, hfail⟩

theorem chunkList_words (text : List Char) :
    ∀ cw ∈ chunkList max_input_length (pySplit text), ∀ w ∈ cw, IsWord w := by
  intro cw hcw w hw
  apply pySplit_words text
  rw [← chunkList_join max_input_length (pySplit text) (by decide)]
  exact List.mem_flatten.mpr ⟨cw, hcw, hw⟩

/-- Re-splitting each produced chunk recovers exactly its window of words. -/
theorem pySplit_chunksOf (text : List Char) :
    (chunksOf text).map pySplit = chunkList max_input_length (pySplit text) := by
  rw [chunksOf, List.map_map]
  have h : ∀ cw ∈ chunkList max_input_length (pySplit text),
      (pySplit ∘ joinSp) cw = cw := by
    intro cw hcw
    exact split_join cw (chunkList_words text cw hcw)
  rw [List.map_congr_left h, List.map_id' _]

theorem getD_map_of_lt {α β : Type} (f : α → β) (l : List α) (i : Nat)
    (h : i < l.length) (d : β) (d' : α) :
    (l.map f).getD i d = f (l.getD i d') := by
  rw [List.getD_eq_getElem l d' h,
    List.getD_eq_getElem _ d (by simpa using h), List.getElem_map]

theorem getD_mem_of_lt {α : Type} (l : List α) (i : Nat) (h : i < l.length)
    (d : α) : l.getD i d ∈ l := by
  rw [List.getD_eq_getElem l d h]
  exact List.getElem_mem h

theorem chunksOf_length (text : List Char) :
    (chunksOf text).length = ceilDiv (pySplit text).length max_input_length := by
  rw [chunksOf, List.length_map, chunkList, ← List.length_map _ List.length,
    chunkListAux_map_length,
    chunkLens_length (pySplit text).length max_input_length (pySplit text).length
      (by decide) (Nat.le_refl _)]

theorem ceilDiv_le_one (n k : Nat) (hk : 0 < k) (h : n ≤ k) : ceilDiv n k ≤ 1 := by
  have hlt : n + k - 1 < 2 * k := by omega
  have := (Nat.div_lt_iff_lt_mul hk).mpr hlt
  unfold ceilDiv
  omega

theorem ceilDiv_pos (n k : Nat) (hk : 0 < k) (h : 0 < n) : 0 < ceilDiv n k := by
  rw [ceilDiv_step k n hk h]
  exact Nat.succ_pos _

/-- Word count of the chunk at index `i`: the `i`-th entry of `chunkLens`. -/
theorem chunksOf_getD_words (text : List Char) (i : Nat)
    (h : i < (chunksOf text).length) :
    (pySplit ((chunksOf text).getD i [])).length =
      (chunkLens (pySplit text).length max_input_length (pySplit text).length).getD i 0 := by
  have hlen : i < (chunkList max_input_length (pySplit text)).length := by
    rw [chunksOf, List.length_map] at h
    exact h
  rw [chunksOf, getD_map_of_lt joinSp _ i hlen [] []]
  rw [split_join _ (chunkList_words text _ (getD_mem_of_lt _ i hlen []))]
  rw [← chunkListAux_map_length]
  exact (getD_map_of_lt List.length
    (chunkListAux (pySplit text).length max_input_length (pySplit text)) i hlen 0 []).symm

/-- C1: for every text whose word count exceeds the window size, the chunks
produced by the summarizer, each split on whitespace and concatenated in chunk
order, reproduce exactly the original word sequence. -/
theorem partition_completeness (text : List Char)
    (h : max_input_length < (pySplit text).length) :
    ((chunksOf text).map pySplit).flatten = pySplit text := by
  rw [pySplit_chunksOf]
  exact chunkList_join max_input_length (pySplit text) (by decide)

theorem partition_completeness_witness :
    max_input_length < (pySplit (joinSp (List.replicate 1025 ['a']))).length ∧
    ((chunksOf (joinSp (List.replicate 1025 ['a']))).map pySplit).flatten =
      pySplit (joinSp (List.replicate 1025 ['a'])) := by
  have hsplit : pySplit (joinSp (List.replicate 1025 (['a'] : List Char))) =
      List.replicate 1025 ['a'] :=
    split_join _ (fun w hw => by
      rw [List.eq_of_mem_replicate hw]
      exact ⟨List.cons_ne_nil 'a' [], by decide⟩)
  have hN : max_input_length < (pySplit (joinSp (List.replicate 1025 (['a'] : List Char)))).length := by
    rw [hsplit, List.length_replicate]
    decide
  exact ⟨hN, partition_completeness _ hN⟩

/-- C2: for a text of at most `max_input_length` words the pipeline is invoked
exactly once, on the full text with the original budget, and its (extracted)
output is returned unchanged; under the gradio validation guards a successful
call's output is returned verbatim. -/
theorem single_chunk_identity (summarizer : Pipe) (text : List Char)
    (max_length min_length : Nat)
    (h : (pySplit text).length ≤ max_input_length) :
    (create_summary summarizer text max_length min_length).1 =
      [(text, max_length, min_length)] ∧
    (create_summary summarizer text max_length min_length).2 =
      summarizeChunk summarizer text max_length min_length ∧
    (∀ s, pyStrip text ≠ [] → ¬((pyStrip text).length < 100) →
      summarizeChunk summarizer text max_length min_length = Except.ok s →
      summarize_text summarizer text max_length min_length = s) := by
  have hnot : ¬((pySplit text).length > max_input_length) := not_lt.mpr h
  refine ⟨?_, ?_, ?_⟩
  · simp [create_summary, hnot]
  · simp [create_summary, hnot]
  · intro s h1 h2 hok
    rw [summarize_text, if_neg h1, if_neg h2]
    simp [create_summary, hnot, hok]

theorem single_chunk_identity_witness :
    (pySplit (List.replicate 100 'a')).length ≤ max_input_length ∧
    summarize_text (fun _ _ _ => Except.ok [[("summary_text".data, "S".data)]])
      (List.replicate 100 'a') 150 50 = "S".data := by
  have h : (pySplit (List.replicate 100 'a')).length ≤ max_input_length := by decide
  exact ⟨h, (single_chunk_identity _ _ 150 50 h).2.2 "S".data
    (by decide) (by decide) rfl⟩

/-- C3: for a text of more than `max_input_length` words the summarizer
produces exactly `ceil(N / windowSize)` chunks and every chunk but possibly
the last holds exactly `windowSize` words; for every text, a run whose
pipeline calls all succeed performs exactly `max(1, ceil(N / windowSize))`
calls. -/
theorem chunk_count_and_call_count (summarizer : Pipe) (text : List Char)
    (max_length min_length : Nat)
    (hok : ∀ c a b, isErr (summarizeChunk summarizer c a b) = false) :
    (max_input_length < (pySplit text).length →
      (chunksOf text).length = ceilDiv (pySplit text).length max_input_length ∧
      ∀ i : Nat, i + 1 < (chunksOf text).length →
        (pySplit ((chunksOf text).getD i [])).length = max_input_length) ∧
    (create_summary summarizer text max_length min_length).1.length =
      max 1 (ceilDiv (pySplit text).length max_input_length) := by
  constructor
  · intro hN
    refine ⟨chunksOf_length text, ?_⟩
    intro i hi
    rw [chunksOf_getD_words text i (Nat.lt_of_succ_lt hi)]
    apply chunkLens_getD _ _ _ (by decide)
    have : (chunkLens (pySplit text).length max_input_length
        (pySplit text).length).length = (chunksOf text).length := by
      rw [chunksOf_length text]
      exact chunkLens_length _ _ _ (by decide) (Nat.le_refl _)
    rw [this]
    exact hi
  · by_cases hN : (pySplit text).length > max_input_length
    · rw [create_summary]
      simp only [hN, if_true]
      have htr := runChunks_ok_trace summarizer
        (max_length / (chunksOf text).length) (min_length / (chunksOf text).length)
        (chunksOf text) (fun c _ => hok c _ _)
      have hlen := congrArg List.length htr
      rw [List.length_map] at hlen
      rw [hlen, chunksOf_length text]
      have hpos : 0 < ceilDiv (pySplit text).length max_input_length :=
        ceilDiv_pos _ _ (by decide) (by omega)
      omega
    · rw [create_summary]
      simp only [hN, if_false]
      have hle : ceilDiv (pySplit text).length max_input_length ≤ 1 :=
        ceilDiv_le_one _ _ (by decide) (by omega)
      simp only [List.length_singleton]
      omega

theorem chunk_count_and_call_count_witness :
    max_input_length < (pySplit (joinSp (List.replicate 1025 ['a']))).length ∧
    (chunksOf (joinSp (List.replicate 1025 ['a']))).length = 2 ∧
    (create_summary (fun _ _ _ => Except.ok [[("summary_text".data, "S".data)]])
      (joinSp (List.replicate 1025 ['a'])) 150 50).1.length = 2 := by
  have hsplit : pySplit (joinSp (List.replicate 1025 (['a'] : List Char))) =
      List.replicate 1025 ['a'] :=
    split_join _ (fun w hw => by
      rw [List.eq_of_mem_replicate hw]
      exact ⟨List.cons_ne_nil 'a' [], by decide⟩)
  have hN : max_input_length <
      (pySplit (joinSp (List.replicate 1025 (['a'] : List Char)))).length := by
    rw [hsplit, List.length_replicate]
    decide
  obtain ⟨h1, h2⟩ := chunk_count_and_call_count
    (fun _ _ _ => Except.ok [[("summary_text".data, "S".data)]])
    (joinSp (List.replicate 1025 ['a'])) 150 50 (fun _ _ _ => rfl)
  refine ⟨hN, ?_, ?_⟩
  · rw [(h1 hN).1, hsplit, List.length_replicate]
    decide
  · rw [h2, hsplit, List.length_replicate]
    decide

/-- C4: in the multi-chunk case every pipeline call receives the budget
`(max_length // len(chunks), min_length // len(chunks))`; a 2050-word input
yields chunks of 1024, 1024 and 2 words, and with budget `(150, 50)` every
call receives `(50, 16)`. -/
theorem budget_division (summarizer : Pipe) (text : List Char)
    (max_length min_length : Nat)
    (hN : max_input_length < (pySplit text).length) :
    (∀ p ∈ (create_summary summarizer text max_length min_length).1,
      p.2 = (max_length / (chunksOf text).length,
             min_length / (chunksOf text).length)) ∧
    ((pySplit text).length = 2050 →
      (chunksOf text).map (fun c => (pySplit c).length) = [1024, 1024, 2] ∧
      (max_length = 150 → min_length = 50 →
        ∀ p ∈ (create_summary summarizer text max_length min_length).1,
          p.2 = (50, 16))) := by
  have hbud : ∀ p ∈ (create_summary summarizer text max_length min_length).1,
      p.2 = (max_length / (chunksOf text).length,
             min_length / (chunksOf text).length) := by
    intro p hp
    rw [create_summary] at hp
    simp only [hN, if_true] at hp
    exact runChunks_budgets summarizer _ _ (chunksOf text) p hp
  refine ⟨hbud, ?_⟩
  intro h2050
  have hmap : (chunksOf text).map (fun c => (pySplit c).length) = [1024, 1024, 2] := by
    have : (chunksOf text).map (fun c => (pySplit c).length) =
        ((chunksOf text).map pySplit).map List.length := by
      rw [List.map_map]; rfl
    rw [this, pySplit_chunksOf, chunkList, chunkListAux_map_length, h2050]
    decide
  refine ⟨hmap, ?_⟩
  intro hm hn p hp
  have hcount : (chunksOf text).length = 3 := by
    have := congrArg List.length hmap
    rw [List.length_map] at this
    simpa using this
  rw [hbud p hp, hcount, hm, hn]

theorem budget_division_witness :
    max_input_length < (pySplit (joinSp (List.replicate 2050 ['a']))).length ∧
    (chunksOf (joinSp (List.replicate 2050 ['a']))).map
      (fun c => (pySplit c).length) = [1024, 1024, 2] ∧
    ∀ p ∈ (create_summary (fun _ _ _ => Except.ok [[("summary_text".data, "S".data)]])
        (joinSp (List.replicate 2050 ['a'])) 150 50).1, p.2 = (50, 16) := by
  have hsplit : pySplit (joinSp (List.replicate 2050 (['a'] : List Char))) =
      List.replicate 2050 ['a'] :=
    split_join _ (fun w hw => by
      rw [List.eq_of_mem_replicate hw]
      exact ⟨List.cons_ne_nil 'a' [], by decide⟩)
  have h2050 : (pySplit (joinSp (List.replicate 2050 (['a'] : List Char)))).length = 2050 := by
    rw [hsplit, List.length_replicate]
  have hN : max_input_length <
      (pySplit (joinSp (List.replicate 2050 (['a'] : List Char)))).length := by
    rw [h2050]; decide
  obtain ⟨_, h2⟩ := budget_division
    (fun _ _ _ => Except.ok [[("summary_text".data, "S".data)]])
    (joinSp (List.replicate 2050 ['a'])) 150 50 hN
  obtain ⟨hmap, hbud⟩ := h2 h2050
  exact ⟨hN, hmap, hbud rfl rfl⟩

/-- The backend calls the source will attempt for a given text and budget:
one per chunk with the divided budget in the multi-chunk case, one call on the
whole text with the original budget otherwise. -/
def plannedCalls (text : List Char) (max_length min_length : Nat) :
    List ((List Char) × Nat × Nat) :=
  if (pySplit text).length > max_input_length then
    (chunksOf text).map (fun c =>
      (c, max_length / (chunksOf text).length, min_length / (chunksOf text).length))
  else [(text, max_length, min_length)]

/-- C5: if the backend call for any one chunk fails, the whole operation
fails: `create_summary` propagates the exception and `summarize_text` (under
its validation guards) returns the error string, never a partial
concatenation of the succeeded chunks. -/
theorem failure_propagation (summarizer : Pipe) (text : List Char)
    (max_length min_length : Nat)
    (hfail : ∃ p ∈ plannedCalls text max_length min_length,
      isErr (summarizeChunk summarizer p.1 p.2.1 p.2.2) = true) :
    isErr (create_summary summarizer text max_length min_length).2 = true ∧
    (pyStrip text ≠ [] → ¬((pyStrip text).length < 100) →
      ∃ e, (create_summary summarizer text max_length min_length).2 =
          Except.error e ∧
        summarize_text summarizer text max_length min_length =
          "Error generating summary: ".data ++ e) := by
  have herr : isErr (create_summary summarizer text max_length min_length).2 = true := by
    by_cases hN : (pySplit text).length > max_input_length
    · rw [plannedCalls, if_pos hN] at hfail
      obtain ⟨p, hp, hperr⟩ := hfail
      obtain ⟨c, hc, rfl⟩ := List.mem_map.mp hp
      rw [create_summary]
      simp only [hN, if_true]
      rw [isErr_map]
      exact runChunks_error summarizer _ _ (chunksOf text) ⟨c, hc, hperr⟩
    · rw [plannedCalls, if_neg hN] at hfail
      obtain ⟨p, hp, hperr⟩ := hfail
      rw [List.mem_singleton] at hp
      subst hp
      rw [create_summary]
      simp only [hN, if_false]
      exact hperr
  refine ⟨herr, ?_⟩
  intro h1 h2
  cases hres : (create_summary summarizer text max_length min_length).2 with
  | ok s => rw [hres] at herr; simp [isErr] at herr
  | error e =>
    refine ⟨e, rfl, ?_⟩
    rw [summarize_text, if_neg h1, if_neg h2, hres]

theorem failure_propagation_witness :
    (∃ p ∈ plannedCalls (List.replicate 100 'a') 150 50,
      isErr (summarizeChunk (fun _ _ _ => Except.error "boom".data)
        p.1 p.2.1 p.2.2) = true) ∧
    summarize_text (fun _ _ _ => Except.error "boom".data)
      (List.replicate 100 'a') 150 50 =
      "Error generating summary: boom".data := by
  have hfail : ∃ p ∈ plannedCalls (List.replicate 100 'a') 150 50,
      isErr (summarizeChunk (fun _ _ _ => Except.error "boom".data)
        p.1 p.2.1 p.2.2) = true := by
    refine ⟨(List.replicate 100 'a', 150, 50), ?_, rfl⟩
    rw [plannedCalls, if_neg (by decide)]
    exact List.mem_singleton.mpr rfl
  obtain ⟨e, he, hs⟩ := (failure_propagation _ _ 150 50 hfail).2 (by decide) (by decide)
  have hval : (create_summary (fun _ _ _ => Except.error "boom".data)
      (List.replicate 100 'a') 150 50).2 = Except.error "boom".data := rfl
  rw [hval] at he
  simp only [Except.error.injEq] at he
  subst he
  exact ⟨hfail, hs⟩

/-- C6: `summarize_text` is total: it returns one of the two validation
messages, or the summary on success, or the string
`"Error generating summary: " + str(e)` when a pipeline call raises or
returns malformed output; in particular a pipeline returning an empty result
list (so that `result[0]` raises `IndexError`) yields the corresponding error
string, not an uncaught exception. -/
theorem never_raises (summarizer : Pipe) (text : List Char)
    (max_length min_length : Nat) :
    (pyStrip text = [] → summarize_text summarizer text max_length min_length =
      "Please enter some text to summarize.".data) ∧
    (pyStrip text ≠ [] → (pyStrip text).length < 100 →
      summarize_text summarizer text max_length min_length =
        "Please enter at least 100 characters for meaningful summarization.".data) ∧
    (pyStrip text ≠ [] → ¬((pyStrip text).length < 100) →
      ((∃ s, (create_summary summarizer text max_length min_length).2 =
          Except.ok s ∧
          summarize_text summarizer text max_length min_length = s) ∨
       (∃ e, (create_summary summarizer text max_length min_length).2 =
          Except.error e ∧
          summarize_text summarizer text max_length min_length =
            "Error generating summary: ".data ++ e))) ∧
    (pyStrip text ≠ [] → ¬((pyStrip text).length < 100) →
      (pySplit text).length ≤ max_input_length →
      summarizer text max_length min_length = Except.ok [] →
      summarize_text summarizer text max_length min_length =
        "Error generating summary: list index out of range".data) := by
  refine ⟨?_, ?_, ?_, ?_⟩
  · intro h0
    rw [summarize_text, if_pos h0]
  · intro h1 h2
    rw [summarize_text, if_neg h1, if_pos h2]
  · intro h1 h2
    cases hres : (create_summary summarizer text max_length min_length).2 with
    | ok s =>
      exact Or.inl ⟨s, rfl, by rw [summarize_text, if_neg h1, if_neg h2, hres]⟩
    | error e =>
      exact Or.inr ⟨e, rfl, by rw [summarize_text, if_neg h1, if_neg h2, hres]⟩
  · intro h1 h2 hsmall hmal
    rw [summarize_text, if_neg h1, if_neg h2]
    rw [create_summary]
    simp only [gt_iff_lt, Nat.not_lt.mpr hsmall, if_false]
    rw [summarizeChunk, hmal]
    rfl

theorem never_raises_witness :
    pyStrip (List.replicate 100 'a') ≠ [] ∧
    ¬((pyStrip (List.replicate 100 'a')).length < 100) ∧
    summarize_text (fun _ _ _ => Except.ok []) (List.replicate 100 'a') 150 50 =
      "Error generating summary: list index out of range".data := by
  refine ⟨by decide, by decide, ?_⟩
  exact (never_raises (fun _ _ _ => Except.ok []) (List.replicate 100 'a')
    150 50).2.2.2 (by decide) (by decide) (by decide) rfl

/-- C7: the stream fold returns exactly the concatenation, in receipt order,
of the `response` fragments of the valid lines; invalid lines (and empty
lines) are skipped without aborting the read. -/
theorem stream_line_tolerance (classify : List Char → StreamLine)
    (lines : List (List Char)) :
    handle_stream classify lines =
      ((lines.filter (fun l => !l.isEmpty)).filterMap (fragOf classify)).flatten := by
  induction lines with
  | nil => rfl
  | cons l ls ih =>
    by_cases hl : l = []
    · subst hl
      rw [handle_stream, if_pos rfl]
      simpa using ih
    · rw [handle_stream, if_neg hl]
      have hne : (!l.isEmpty) = true := by
        cases l with
        | nil => exact absurd rfl hl
        | cons c cs => rfl
      rw [List.filter_cons, if_pos hne]
      cases hc : classify l with
      | invalid =>
        rw [List.filterMap_cons]
        simp only [fragOf, hc]
        exact ih
      | noResponseField =>
        rw [List.filterMap_cons]
        simp only [fragOf, hc]
        exact ih
      | responseFragment frag =>
        rw [List.filterMap_cons]
        simp only [fragOf, hc]
        rw [List.flatten_cons, ih]

/-- C8 counterexample: in `app_cloud.py` the displayed compression statistic
is computed from word counts, which differs from
`len(summary) / len(original) * 100` on a two-character, one-word input. -/
theorem compression_stat_cex :
    compressionPctCloud "ab".data "a".data ≠
      (("a".data.length : ℚ) / ("ab".data.length : ℚ)) * 100 := by
  have h1 : pySplit "ab".data = ["ab".data] := by decide
  have h2 : pySplit "a".data = ["a".data] := by decide
  rw [compressionPctCloud, h1, h2]
  norm_num

/-- C8 amended: `ai_summarizer_app.py` and `streamlit_enhanced.py` display
`len(summary) / len(original) * 100` over character counts, while
`app_cloud.py` and `gradio_version.py` display the analogous ratio over word
counts (`len(x.split())`); the two disagree in general. -/
theorem compression_stat_amended :
    (∀ text summary : List Char, compressionPct text summary =
      (summary.length : ℚ) / (text.length : ℚ) * 100) ∧
    (∀ text summary : List Char, compressionPctCloud text summary =
      ((pySplit summary).length : ℚ) / ((pySplit text).length : ℚ) * 100) ∧
    ¬(∀ text summary : List Char, compressionPctCloud text summary =
      (summary.length : ℚ) / (text.length : ℚ) * 100) := by
  refine ⟨fun _ _ => rfl, fun _ _ => rfl, fun hall => ?_⟩
  have h := hall "ab".data "a".data
  have h1 : pySplit "ab".data = ["ab".data] := by decide
  have h2 : pySplit "a".data = ["a".data] := by decide
  rw [compressionPctCloud, h1, h2] at h
  norm_num at h

/-- C9: the history store keeps at most the 10 most recent entries: after
every save the length is at most 10, the new entry is first, the surviving
entries are the first nine old ones in their original order, and when the
store was full the evicted entry is the last (oldest) one. -/
theorem history_cap (α : Type) (entry : α) (history : List α) :
    (save_summary_session entry history).length ≤ 10 ∧
    save_summary_session entry history = entry :: history.take 9 ∧
    (history.length ≤ 9 → save_summary_session entry history = entry :: history) ∧
    (history.length = 10 →
      save_summary_session entry history = entry :: history.dropLast) := by
  refine ⟨?_, rfl, ?_, ?_⟩
  · rw [save_summary_session, List.length_take]
    exact min_le_left _ _
  · intro h9
    show entry :: history.take 9 = entry :: history
    rw [List.take_of_length_le h9]
  · intro h10
    show entry :: history.take 9 = entry :: history.dropLast
    rw [List.dropLast_eq_take, h10]

theorem history_cap_witness :
    (save_summary_session 0 [1, 2, 3, 4, 5, 6, 7, 8, 9, 10]).length ≤ 10 ∧
    save_summary_session 0 [1, 2, 3, 4, 5, 6, 7, 8, 9, 10] =
      0 :: [1, 2, 3, 4, 5, 6, 7, 8, 9, 10].dropLast :=
  ⟨(history_cap Nat 0 [1, 2, 3, 4, 5, 6, 7, 8, 9, 10]).1,
   (history_cap Nat 0 [1, 2, 3, 4, 5, 6, 7, 8, 9, 10]).2.2.2 rfl⟩

/-- C10: on a successful non-streaming request whose JSON body has no
`response` field, `generate` returns the empty string (a success value);
it returns `None` exactly when the HTTP request raises. -/
theorem generate_missing_field (classify : List Char → StreamLine)
    (response : OllamaResponse)
    (h : ∀ p ∈ response.body, p.1 ≠ "response".data) :
    generate classify false (Except.ok response) = some "".data ∧
    ∀ t : Except (List Char) OllamaResponse,
      (generate classify false t = none ↔ isErr t = true) := by
  constructor
  · rw [generate]
    simp only [if_false, Bool.false_eq_true]
    have hfind : response.body.find? (fun p => p.1 = "response".data) = none :=
      List.find?_eq_none.mpr (fun x hx => by simp [h x hx])
    rw [dict_get, hfind]
  · intro t
    cases t with
    | ok r => simp [generate, isErr]
    | error e => simp [generate, isErr]

theorem generate_missing_field_witness :
    (∀ p ∈ (OllamaResponse.mk [("model".data, "llama".data)] []).body,
      p.1 ≠ "response".data) ∧
    generate (fun _ => StreamLine.invalid) false
      (Except.ok (OllamaResponse.mk [("model".data, "llama".data)] [])) =
      some "".data := by
  have h : ∀ p ∈ (OllamaResponse.mk [("model".data, "llama".data)] []).body,
      p.1 ≠ "response".data := by decide
  exact ⟨h, (generate_missing_field (fun _ => StreamLine.invalid) _ h).1⟩
